import Mathlib

/-!
# Verification of the SMV string-similarity functions and Python helper glue

This development embeds, in Lean 4, the operations of the SMV repository that
the specification describes:

* the four string-similarity metrics (`nGram2`, `nGram3`, `diceSorensen`,
  `normlevenshtein`, `jaroWinkler`) exercised by
  `src/test/python/testSmvfuncs.py`,
* the categorical lookup builder (`smvCreateLookUp` in the tests,
  `buildCategoricalLookup` in the specification),
* the dynamic method-attachment helpers `_helpCls` / `_getUnboundMethod` and
  the `smvHashSample` argument check of `src/main/python/smv/helpers.py`.

The similarity metrics and the lookup builder are implemented on the JVM side
of the project and their code is not part of this repository's Python sources;
they are modelled here from the specification (and, where the specification
conflicts with the repository's own test expectations, from the test file,
which is part of the sources).  Null/absent inputs are modelled as `none`,
"undefined result" as `none`, and floating-point scores as exact rationals.
-/

/-! ## Shingle (n-gram) token sets -/

/-- Modelled from the spec: the set of `n`-length contiguous character
substrings of a string, via a sliding window, no padding, no case
normalization.  A string shorter than `n` yields the empty set. -/
def shingles (n : ℕ) (s : List Char) : Finset (List Char) :=
  ((List.range (s.length + 1 - n)).map (fun i => (s.drop i).take n)).toFinset

/-- Modelled from the spec / `testSmvfuncs.py`: the n-gram similarity
`nGram(n, s1, s2)` of the SMV function library (whose implementation lives on
the JVM side and is absent from these sources).  Null input or an empty
shingle set gives an undefined (missing) result.  The score is the shingle
overlap divided by the larger shingle-set size; this denominator follows the
repository test `test_distMetric`, whose expected values
(`nGram2("asdfghj","asdfhgj") = 0.5`, `nGram3 = 0.4`) are matched by
`|A ∩ B| / max |A| |B|` and not by the Jaccard index `|A ∩ B| / |A ∪ B|`. -/
def nGram (n : ℕ) : Option String → Option String → Option ℚ
  | some s1, some s2 =>
    let A := shingles n s1.data
    let B := shingles n s2.data
    if A = ∅ ∨ B = ∅ then none
    else some (((A ∩ B).card : ℚ) / (max A.card B.card : ℕ))
  | _, _ => none

/-- The operation `nGram2` of the SMV function library. -/
def nGram2 : Option String → Option String → Option ℚ := nGram 2

/-- The operation `nGram3` of the SMV function library. -/
def nGram3 : Option String → Option String → Option ℚ := nGram 3

/-- Modelled from the spec: the Dice–Sorensen coefficient over 2-shingles,
`2·|A ∩ B| / (|A| + |B|)`; undefined on null input or an empty shingle set. -/
def diceSorensen : Option String → Option String → Option ℚ
  | some s1, some s2 =>
    let A := shingles 2 s1.data
    let B := shingles 2 s2.data
    if A = ∅ ∨ B = ∅ then none
    else some ((2 * (A ∩ B).card : ℚ) / ((A.card + B.card : ℕ) : ℚ))
  | _, _ => none

/-! ## Levenshtein distance -/

/-- The classic Levenshtein edit distance: the minimum number of
single-character insertions, deletions and substitutions (unit cost each)
transforming one string into the other, as the textbook recursion. -/
def levRec : List Char → List Char → ℕ
  | [], t => t.length
  | s, [] => s.length
  | a :: s, b :: t =>
    min (levRec s (b :: t) + 1)
      (min (levRec (a :: s) t + 1) (levRec s t + (if a = b then 0 else 1)))
termination_by s t => s.length + t.length

/-- The list of prefixes of `t`, each extended on the left by `q`; with
`q = []` this is the list of all prefixes of `t`, in order of length. -/
def prefs (q : List Char) : List Char → List (List Char)
  | [] => [q]
  | b :: bs => q :: prefs (q ++ [b]) bs

/-- Modelled from the spec: one inner pass of the standard dynamic-programming
table for the Levenshtein distance.  Given the previous table row (as
`diag :: up :: rest`) and the entry `left` to the left of the one being
computed, each new entry is
`min (up + 1) (min (left + 1) (diag + cost))` with `cost = 0` iff the two
characters agree — the recurrence
`dp[i][j] = min (dp[i-1][j]+1) (dp[i][j-1]+1) (dp[i-1][j-1]+cost)`. -/
def levStepAux (a : Char) : List Char → List ℕ → ℕ → List ℕ
  | b :: bs, diag :: up :: rest, left =>
    let v := min (up + 1) (min (left + 1) (diag + (if a = b then 0 else 1)))
    v :: levStepAux a bs (up :: rest) v
  | _, _, _ => []

/-- Modelled from the spec: from table row `i-1` compute table row `i` of the
standard Levenshtein dynamic program; the leading entry is `dp[i][0] = i`. -/
def levStep (a : Char) (s2 : List Char) (prev : List ℕ) : List ℕ :=
  match prev with
  | [] => []
  | d :: _ => (d + 1) :: levStepAux a s2 prev (d + 1)

/-- Modelled from the spec: the Levenshtein distance computed by the standard
`(len s1 + 1) × (len s2 + 1)` dynamic-programming table, built row by row
starting from `dp[0][j] = j`; the result is the bottom-right entry. -/
def levTable (s1 s2 : List Char) : ℕ :=
  (s1.foldl (fun row a => levStep a s2 row) (List.range (s2.length + 1))).getLastD 0

/-- Modelled from the spec: `normlevenshtein` of the SMV function library:
similarity `1 - d / max(len s1, len s2)` where `d` is the Levenshtein
distance, computed by the standard dynamic-programming table.  Undefined on
null input and when both strings are empty. -/
def normlevenshtein : Option String → Option String → Option ℚ
  | some s1, some s2 =>
    if s1.data = [] ∧ s2.data = [] then none
    else
      some (1 - (levTable s1.data s2.data : ℚ) / ((max s1.data.length s2.data.length : ℕ) : ℚ))
  | _, _ => none

/-! ## Jaro–Winkler similarity -/

/-- The Jaro matching window: `max len1 len2 / 2 - 1` (truncated at 0). -/
def matchWindow (l1 l2 : ℕ) : ℕ := max l1 l2 / 2 - 1

/-- The first (hence smallest) index `j` in `[lo, lo + len)` that is not yet
used and carries character `c` in `s2`.  Indices beyond the end of `s2` never
match because `s2.get? j` is `none` there. -/
def findMatch (s2 : List Char) (used : List ℕ) (c : Char) (lo len : ℕ) : Option ℕ :=
  (List.range' lo len).find? (fun j => decide (j ∉ used ∧ s2.get? j = some c))

/-- The standard greedy Jaro matching: walk the characters of `s1` in order
(at index `i`), match each to the first unused position of the same character
in `s2` within the window `[i - w, i + w]`, and record the matched index
pairs. -/
def jaroPairsAux (s2 : List Char) (w : ℕ) : List Char → ℕ → List ℕ → List (ℕ × ℕ)
  | [], _, _ => []
  | c :: rest, i, used =>
    match findMatch s2 used c (i - w) (i + w + 1 - (i - w)) with
    | some j => (i, j) :: jaroPairsAux s2 w rest (i + 1) (j :: used)
    | none => jaroPairsAux s2 w rest (i + 1) used

/-- The matched index pairs of the Jaro algorithm on `s1`, `s2`. -/
def jaroPairs (s1 s2 : List Char) : List (ℕ × ℕ) :=
  jaroPairsAux s2 (matchWindow s1.length s2.length) s1 0 []

/-- The characters of `s` whose indices belong to `l`, in index order. -/
def charsAtMem (s : List Char) (l : List ℕ) : List Char :=
  ((List.range s.length).filter (fun i => decide (i ∈ l))).filterMap (fun i => s.get? i)

/-- Half the number of positions at which the two matched character sequences
disagree: the Jaro transposition count. -/
def transpositions (m1 m2 : List Char) : ℕ :=
  ((m1.zip m2).countP (fun p => decide (p.1 ≠ p.2))) / 2

/-- Modelled from the spec: the standard Jaro similarity of two character
lists: with `m` matches and `t` transpositions,
`(m/len1 + m/len2 + (m - t)/m) / 3`, and `0` when there are no matches. -/
def jaroSim (a b : List Char) : ℚ :=
  let P := jaroPairs a b
  let m := P.length
  if m = 0 then 0
  else
    let m1 := charsAtMem a (P.map Prod.fst)
    let m2 := charsAtMem b (P.map Prod.snd)
    let t := transpositions m1 m2
    ((m : ℚ) / a.length + (m : ℚ) / b.length + ((m - t : ℕ) : ℚ) / (m : ℚ)) / 3

/-- The length of the longest common prefix of two character lists. -/
def commonPrefixLen : List Char → List Char → ℕ
  | a :: as, b :: bs => if a = b then commonPrefixLen as bs + 1 else 0
  | _, _ => 0

/-- Modelled from the spec: the Winkler boost: the Jaro score plus
`ℓ · 0.1 · (1 - jaro)` where `ℓ` is the common-prefix length capped at 4. -/
def jaroWinklerVal (a b : List Char) : ℚ :=
  jaroSim a b + ((min 4 (commonPrefixLen a b) : ℕ) : ℚ) / 10 * (1 - jaroSim a b)

/-- Modelled from the spec: `jaroWinkler` of the SMV function library;
undefined on null input and when either string is empty. -/
def jaroWinkler : Option String → Option String → Option ℚ
  | some s1, some s2 =>
    if s1.data = [] ∨ s2.data = [] then none
    else some (jaroWinklerVal s1.data s2.data)
  | _, _ => none

/-! ## Abstract greedy interval matching, used to analyse the Jaro matching -/

/-- The first element of `J` lying in the window `[i - w, i + w]`; for an
ascending `J` this is the smallest such element. -/
def minFeasible (w i : ℕ) (J : List ℕ) : Option ℕ :=
  J.find? (fun j => decide (i ≤ j + w ∧ j ≤ i + w))

/-- One character class of the greedy Jaro matching, operationally: walk the
positions `I` in order, match each to the smallest still-available position of
`J` within the window, and remove it. -/
def cgOp (w : ℕ) : List ℕ → List ℕ → List (ℕ × ℕ)
  | [], _ => []
  | i :: I, J =>
    match minFeasible w i J with
    | some j => (i, j) :: cgOp w I (J.erase j)
    | none => cgOp w I J

/-- The merge form of one character class of the greedy Jaro matching: heads
too far apart are dropped (on the side that can never match again), and heads
within the window of each other are matched. -/
def jmerge (w : ℕ) : List ℕ → List ℕ → List (ℕ × ℕ)
  | [], _ => []
  | _ :: _, [] => []
  | a :: I, b :: J =>
    if a + w < b then jmerge w I (b :: J)
    else if b + w < a then jmerge w (a :: I) J
    else (a, b) :: jmerge w I J
termination_by I J => I.length + J.length

/-- The positions `≥ i0` of character `c` in `s`, in ascending order. -/
def classFrom (s : List Char) (c : Char) (i0 : ℕ) : List ℕ :=
  (List.range' i0 (s.length - i0)).filter (fun j => decide (s.get? j = some c))

/-! ## Rounding, lookup, and the Python helper layer -/

/-- Round half-up at the second decimal, the canonical rounding rule the
specification uses for its worked examples. -/
def roundHalfUp2 (q : ℚ) : ℚ := ((⌊q * 100 + 1 / 2⌋ : ℤ) : ℚ) / 100

/-- Modelled from the spec: `buildCategoricalLookup` (the test file's
`smvCreateLookUp`, implemented on the JVM side): build a unary function
mapping a key of the table to its value and everything else — including a
null input — to the default. -/
def buildCategoricalLookup (table : List (String × String)) (dflt : Option String) :
    Option String → Option String :=
  fun x =>
    match x with
    | none => dflt
    | some k =>
      match table.lookup k with
      | some v => some v
      | none => dflt

/-- A Python helper class, as used by `_helpCls` in `smv/helpers.py`: a table
of named methods.  Constructing `helperCls(self)` and invoking a method on the
instance is modelled by applying the method's function to the receiver and the
arguments. -/
structure PyHelperCls (R A B : Type) where
  methods : List (String × (R → A → B))

/-- Models Python's `name.startswith("_")`: the first character is `'_'`. -/
def underscored (s : String) : Bool :=
  match s.data with
  | [] => false
  | c :: _ => c = '_'

/-- Models `_getUnboundMethod(helperCls, methodName)` of `smv/helpers.py`: the
function `method(self, *args) = getattr(helperCls(self), methodName)(*args)`. -/
def _getUnboundMethod {R A B : Type} [Inhabited B] (helperCls : PyHelperCls R A B)
    (methodName : String) : R → A → B :=
  fun self args => ((helperCls.methods.lookup methodName).getD (fun _ _ => default)) self args

/-- Models `_helpCls(receiverCls, helperCls)` of `smv/helpers.py`: for every method
of the helper class whose name does not start with an underscore, set the
receiver class's attribute of that name to the unbound forwarding method.  The
receiver class is modelled as its attribute table. -/
def _helpCls {R A B : Type} [Inhabited B] (receiverCls : String → Option (R → A → B))
    (helperCls : PyHelperCls R A B) : String → Option (R → A → B) :=
  helperCls.methods.foldl
    (fun recv nm =>
      if underscored nm.1 then recv
      else Function.update recv nm.1 (some ( _getUnboundMethod helperCls nm.1)))
    receiverCls

/-- The `key` argument of `smvHashSample`: a Python value that is a string, a
`Column`, or something else. -/
inductive PyKey where
  | str (s : String)
  | column (c : ℕ)
  | other (v : ℕ)

/-- The JVM column handle `smvHashSample` passes on: `col(key)._jc` for a
string key, `key._jc` for a `Column` key. -/
inductive JKey where
  | fromName (s : String)
  | fromCol (c : ℕ)

/-- Models `DataFrameHelper.smvHashSample` of `smv/helpers.py`, up to the JVM call:
select the JVM key from a string or `Column` key and forward `rate` and
`seed`; any other key type raises `RuntimeError`. -/
def smvHashSample (key : PyKey) (rate : ℚ) (seed : ℤ) : Except String (JKey × ℚ × ℤ) :=
  match key with
  | PyKey.str s => Except.ok (JKey.fromName s, rate, seed)
  | PyKey.column c => Except.ok (JKey.fromCol c, rate, seed)
  | PyKey.other _ => Except.error "key parameter must be either a String or a Column"

/-- The default `rate` parameter of `smvHashSample`. -/
def smvHashSampleDefaultRate : ℚ := 1 / 100

/-- The default `seed` parameter of `smvHashSample`. -/
def smvHashSampleDefaultSeed : ℤ := 23

/-! ## Properties of the Levenshtein recursion -/

theorem levRec_nil_left (t : List Char) : levRec [] t = t.length := by
  cases t <;> simp [levRec]

theorem levRec_nil_right (s : List Char) : levRec s [] = s.length := by
  cases s <;> simp [levRec]

theorem levRec_cons_cons (a b : Char) (s t : List Char) :
    levRec (a :: s) (b :: t) =
      min (levRec s (b :: t) + 1)
        (min (levRec (a :: s) t + 1) (levRec s t + (if a = b then 0 else 1))) := by
  simp [levRec]
theorem min_shuffle (P1 P2 P3 P4 P5 P6 P7 P8 P9 cab cxy : ℕ) :
    min (min (P1 + 1) (min (P2 + 1) (P3 + cab)) + 1)
        (min (min (P4 + 1) (min (P5 + 1) (P6 + cab)) + 1)
          (min (P7 + 1) (min (P8 + 1) (P9 + cab)) + cxy))
    =
    min (min (P1 + 1) (min (P4 + 1) (P7 + cxy)) + 1)
        (min (min (P2 + 1) (min (P5 + 1) (P8 + cxy)) + 1)
          (min (P3 + 1) (min (P6 + 1) (P9 + cxy)) + cab)) := by
  simp only [← min_add_add_right]
  ring_nf
  ac_rfl

set_option maxHeartbeats 1000000 in
theorem levRec_append (s t : List Char) (a b : Char) :
    levRec (s ++ [a]) (t ++ [b]) =
      min (levRec s (t ++ [b]) + 1)
        (min (levRec (s ++ [a]) t + 1) (levRec s t + (if a = b then 0 else 1))) := by
  cases s with
  | nil =>
    cases t with
    | nil => simp [levRec]
    | cons y ts =>
      have ih := levRec_append [] ts a b
      simp only [List.nil_append, List.cons_append] at ih ⊢
      rw [levRec_cons_cons a y, levRec_cons_cons a y, ih]
      rw [levRec_nil_left, levRec_nil_left, levRec_nil_left, levRec_nil_left]
      simp only [List.length_append, List.length_cons, List.length_nil]
      omega
  | cons x ss =>
    cases t with
    | nil =>
      have ih := levRec_append ss [] a b
      simp only [List.nil_append, List.cons_append] at ih ⊢
      rw [levRec_cons_cons x b, levRec_cons_cons x b, ih]
      rw [levRec_nil_right, levRec_nil_right, levRec_nil_right, levRec_nil_right]
      simp only [List.length_append, List.length_cons, List.length_nil]
      omega
    | cons y ts =>
      have ih1 := levRec_append ss (y :: ts) a b
      have ih2 := levRec_append (x :: ss) ts a b
      have ih3 := levRec_append ss ts a b
      simp only [List.cons_append] at ih1 ih2 ih3 ⊢
      rw [levRec_cons_cons x y (ss ++ [a]) (ts ++ [b]), ih1, ih2, ih3]
      rw [levRec_cons_cons x y ss (ts ++ [b])]
      rw [levRec_cons_cons x y (ss ++ [a]) ts]
      rw [levRec_cons_cons x y ss ts]
      apply min_shuffle
termination_by s.length + t.length
decreasing_by all_goals simp <;> omega

theorem levRec_self (s : List Char) : levRec s s = 0 := by
  induction s with
  | nil => simp [levRec_nil_left]
  | cons a s ih =>
    rw [levRec_cons_cons]
    simp only [ih, if_true, eq_self_iff_true]
    omega

theorem levRec_comm (s t : List Char) : levRec s t = levRec t s := by
  cases s with
  | nil => rw [levRec_nil_left, levRec_nil_right]
  | cons a ss =>
    cases t with
    | nil => rw [levRec_nil_left, levRec_nil_right]
    | cons b ts =>
      have ih1 := levRec_comm ss (b :: ts)
      have ih2 := levRec_comm (a :: ss) ts
      have ih3 := levRec_comm ss ts
      rw [levRec_cons_cons, levRec_cons_cons, ih1, ih2, ih3]
      have hc : (if a = b then 0 else 1) = (if b = a then 0 else 1) := by
        simp [eq_comm]
      rw [hc]
      generalize levRec (b :: ts) ss = A
      generalize levRec ts (a :: ss) = B
      generalize levRec ts ss = C
      omega
termination_by s.length + t.length
decreasing_by all_goals simp <;> omega

theorem prefs_eq_cons (q t : List Char) : prefs q t = q :: (prefs q t).tail := by
  cases t <;> rfl

theorem levStepAux_spec (a : Char) (p : List Char) :
    ∀ (t q : List Char),
      levStepAux a t ((prefs q t).map (levRec p)) (levRec (p ++ [a]) q) =
        ((prefs q t).tail).map (levRec (p ++ [a])) := by
  intro t
  induction t with
  | nil => intro q; rfl
  | cons b bs ih =>
    intro q
    rw [show prefs q (b :: bs) = q :: prefs (q ++ [b]) bs from rfl]
    rw [prefs_eq_cons (q ++ [b]) bs]
    simp only [List.map_cons, List.tail_cons]
    rw [levStepAux]
    rw [← levRec_append p q a b]
    rw [← List.map_cons (levRec p) (q ++ [b]) ((prefs (q ++ [b]) bs).tail)]
    rw [← prefs_eq_cons (q ++ [b]) bs]
    rw [ih (q ++ [b])]

theorem levStep_spec (a : Char) (p s2 : List Char) :
    levStep a s2 ((prefs [] s2).map (levRec p)) = (prefs [] s2).map (levRec (p ++ [a])) := by
  rw [prefs_eq_cons [] s2]
  simp only [List.map_cons]
  rw [levStep]
  have hd : levRec p [] + 1 = levRec (p ++ [a]) [] := by
    rw [levRec_nil_right, levRec_nil_right, List.length_append, List.length_cons,
      List.length_nil]
  rw [hd]
  rw [← List.map_cons (levRec p) [] ((prefs [] s2).tail)]
  rw [← prefs_eq_cons [] s2]
  rw [levStepAux_spec a p s2 []]

theorem foldl_levStep (s2 : List Char) :
    ∀ (r p : List Char),
      List.foldl (fun row a => levStep a s2 row) ((prefs [] s2).map (levRec p)) r =
        (prefs [] s2).map (levRec (p ++ r)) := by
  intro r
  induction r with
  | nil => intro p; rw [List.append_nil]; rfl
  | cons a r ih =>
    intro p
    rw [List.foldl_cons, levStep_spec a p s2, ih (p ++ [a])]
    rw [List.append_assoc]
    rfl

theorem prefs_map_length (t : List Char) :
    ∀ q : List Char, (prefs q t).map List.length = List.range' q.length (t.length + 1) := by
  induction t with
  | nil =>
    intro q
    simp [prefs, List.range']
  | cons b bs ih =>
    intro q
    rw [show prefs q (b :: bs) = q :: prefs (q ++ [b]) bs from rfl]
    simp only [List.map_cons, ih (q ++ [b]), List.length_append, List.length_cons,
      List.length_nil, List.length_cons]
    rfl

theorem prefs_map_getLastD (f : List Char → ℕ) (t : List Char) :
    ∀ (q : List Char) (x : ℕ), ((prefs q t).map f).getLastD x = f (q ++ t) := by
  induction t with
  | nil => intro q x; rw [List.append_nil]; rfl
  | cons b bs ih =>
    intro q x
    rw [show prefs q (b :: bs) = q :: prefs (q ++ [b]) bs from rfl]
    simp only [List.map_cons, List.getLastD_cons]
    rw [ih (q ++ [b]) (f q), List.append_assoc]
    rfl

theorem levTable_eq_levRec (s1 s2 : List Char) : levTable s1 s2 = levRec s1 s2 := by
  unfold levTable
  have hinit : List.range (s2.length + 1) = (prefs [] s2).map (levRec []) := by
    have h1 : (prefs [] s2).map (levRec []) = (prefs [] s2).map List.length := by
      apply List.map_congr_left
      intro p _
      exact levRec_nil_left p
    rw [h1, prefs_map_length s2 [], List.length_nil, List.range_eq_range']
  rw [hinit, foldl_levStep s2 s1 [], List.nil_append]
  rw [prefs_map_getLastD (levRec s1) s2 [] 0, List.nil_append]

/-! ## Generic helpers -/

theorem string_eq_empty_iff (s : String) : s = "" ↔ s.data = [] := by
  constructor
  · intro h; rw [h]
  · intro h
    cases s with
    | mk d => cases h; rfl

/-! ## Claim theorems: undefined inputs (C1) -/

/-- Claim C1: for each of the similarity operations (nGram2, nGram3,
diceSorensen, normlevenshtein, jaroWinkler), a null (absent) input on either
side yields the undefined result `none`, and for the token-set based
operations an empty shingle set on either side also yields `none`.  The
operations are total Lean functions into `Option ℚ`, so no input raises an
exception, and an undefined result is `none` rather than any sentinel
number. -/
theorem distMetrics_undefined_on_null_or_empty :
    (∀ x, nGram2 none x = none) ∧ (∀ x, nGram2 x none = none) ∧
    (∀ x, nGram3 none x = none) ∧ (∀ x, nGram3 x none = none) ∧
    (∀ x, diceSorensen none x = none) ∧ (∀ x, diceSorensen x none = none) ∧
    (∀ x, normlevenshtein none x = none) ∧ (∀ x, normlevenshtein x none = none) ∧
    (∀ x, jaroWinkler none x = none) ∧ (∀ x, jaroWinkler x none = none) ∧
    (∀ s1 s2 : String, shingles 2 s1.data = ∅ ∨ shingles 2 s2.data = ∅ →
      nGram2 (some s1) (some s2) = none) ∧
    (∀ s1 s2 : String, shingles 3 s1.data = ∅ ∨ shingles 3 s2.data = ∅ →
      nGram3 (some s1) (some s2) = none) ∧
    (∀ s1 s2 : String, shingles 2 s1.data = ∅ ∨ shingles 2 s2.data = ∅ →
      diceSorensen (some s1) (some s2) = none) := by
  refine ⟨?_, ?_, ?_, ?_, ?_, ?_, ?_, ?_, ?_, ?_, ?_, ?_, ?_⟩
  · intro x; cases x <;> rfl
  · intro x; cases x <;> rfl
  · intro x; cases x <;> rfl
  · intro x; cases x <;> rfl
  · intro x; cases x <;> rfl
  · intro x; cases x <;> rfl
  · intro x; cases x <;> rfl
  · intro x; cases x <;> rfl
  · intro x; cases x <;> rfl
  · intro x; cases x <;> rfl
  · intro s1 s2 h
    show nGram 2 (some s1) (some s2) = none
    simp only [nGram]
    rw [if_pos h]
  · intro s1 s2 h
    show nGram 3 (some s1) (some s2) = none
    simp only [nGram]
    rw [if_pos h]
  · intro s1 s2 h
    simp only [diceSorensen]
    rw [if_pos h]

/-- Witness for C1 at the test row `(null, "ads")` and at a one-character
string whose 2-shingle set is empty. -/
theorem distMetrics_undefined_witness :
    nGram2 none (some "ads") = none ∧ nGram2 (some "a") (some "ads") = none := by
  constructor
  · exact distMetrics_undefined_on_null_or_empty.1 (some "ads")
  · exact distMetrics_undefined_on_null_or_empty.2.2.2.2.2.2.2.2.2.2.1 "a" "ads"
      (Or.inl (by decide))

/-! ## Claim theorem: normalized Levenshtein (C2) -/

/-- Claim C2: for strings not both empty, `normlevenshtein` equals one minus
the classic unit-cost edit distance (the textbook recursion `levRec`,
computed internally by the standard dynamic-programming table `levTable`)
divided by the larger length; on the test pair it rounds half-up to `0.71`;
and on two empty strings it is undefined rather than `1` or anything else. -/
theorem normlevenshtein_spec :
    (∀ s1 s2 : String, ¬(s1 = "" ∧ s2 = "") →
      normlevenshtein (some s1) (some s2) =
        some (1 - (levRec s1.data s2.data : ℚ) /
          ((max s1.data.length s2.data.length : ℕ) : ℚ)))
    ∧ Option.map roundHalfUp2 (normlevenshtein (some "asdfghj") (some "asdfhgj")) =
        some (71 / 100)
    ∧ normlevenshtein (some "") (some "") = none := by
  refine ⟨?_, ?_, ?_⟩
  · intro s1 s2 h
    simp only [normlevenshtein]
    rw [if_neg, levTable_eq_levRec]
    rw [string_eq_empty_iff s1, string_eq_empty_iff s2] at h
    exact h
  · simp only [normlevenshtein]
    rw [if_neg (by decide)]
    rw [show levTable "asdfghj".data "asdfhgj".data = 2 from by decide]
    rw [show (max "asdfghj".data.length "asdfhgj".data.length : ℕ) = 7 from by decide]
    rw [Option.map_some']
    rw [show (1 - ((2 : ℕ) : ℚ) / ((7 : ℕ) : ℚ)) = 5 / 7 by norm_num]
    unfold roundHalfUp2
    rw [show (5 / 7 * 100 + 1 / 2 : ℚ) = 1007 / 14 by norm_num]
    rw [show (⌊(1007 / 14 : ℚ)⌋ : ℤ) = 71 by
      rw [Int.floor_eq_iff] <;> norm_num]
    norm_num
  · simp only [normlevenshtein]
    rw [if_pos (by decide)]

/-- Witness for C2 at the repository test pair. -/
theorem normlevenshtein_spec_witness :
    normlevenshtein (some "asdfghj") (some "asdfhgj") =
      some (1 - (levRec "asdfghj".data "asdfhgj".data : ℚ) /
        ((max "asdfghj".data.length "asdfhgj".data.length : ℕ) : ℚ)) :=
  normlevenshtein_spec.1 "asdfghj" "asdfhgj" (by decide)

/-! ## Claim theorems: n-gram similarity (C4) and Dice–Sorensen (C5) -/

/-- Counterexample to claim C4 as stated: on the repository test pair
`("asdfghj", "asdfhgj")` the n-gram similarity does not equal the Jaccard
index `|A ∩ B| / |A ∪ B|` of the 2-shingle sets: the test file expects
`0.5 = 3/6`, while the Jaccard index is `3/9`. -/
theorem nGram_jaccard_counterexample :
    nGram2 (some "asdfghj") (some "asdfhgj") ≠
      some (((shingles 2 "asdfghj".data ∩ shingles 2 "asdfhgj".data).card : ℚ) /
        ((shingles 2 "asdfghj".data ∪ shingles 2 "asdfhgj".data).card : ℚ)) := by
  rw [show (shingles 2 "asdfghj".data ∩ shingles 2 "asdfhgj".data).card = 3 from by decide]
  rw [show (shingles 2 "asdfghj".data ∪ shingles 2 "asdfhgj".data).card = 9 from by decide]
  show nGram 2 (some "asdfghj") (some "asdfhgj") ≠ _
  simp only [nGram]
  rw [if_neg (by decide)]
  rw [show (shingles 2 "asdfghj".data ∩ shingles 2 "asdfhgj".data).card = 3 from by decide]
  rw [show (max (shingles 2 "asdfghj".data).card (shingles 2 "asdfhgj".data).card : ℕ) = 6
    from by decide]
  intro h
  rw [Option.some_inj] at h
  norm_num at h

/-- Claim C4 (amended): the n-gram similarity is the shingle overlap divided
by the size of the larger shingle set, `|A ∩ B| / max |A| |B|` (not the
Jaccard index); `nGram2` and `nGram3` are `1` on the equal test pair, take the
repository test values `0.5` and `0.4` on `("asdfghj", "asdfhgj")`, and are
undefined when either shingle set is empty. -/
theorem nGram_spec :
    (∀ (n : ℕ) (s1 s2 : String),
        shingles n s1.data ≠ ∅ → shingles n s2.data ≠ ∅ →
        nGram n (some s1) (some s2) =
          some (((shingles n s1.data ∩ shingles n s2.data).card : ℚ) /
            ((max (shingles n s1.data).card (shingles n s2.data).card : ℕ) : ℚ)))
    ∧ nGram2 (some "asdfg") (some "asdfg") = some 1
    ∧ nGram3 (some "asdfg") (some "asdfg") = some 1
    ∧ Option.map roundHalfUp2 (nGram2 (some "asdfghj") (some "asdfhgj")) = some (1 / 2)
    ∧ Option.map roundHalfUp2 (nGram3 (some "asdfghj") (some "asdfhgj")) = some (2 / 5)
    ∧ (∀ (n : ℕ) (s1 s2 : String),
        shingles n s1.data = ∅ ∨ shingles n s2.data = ∅ →
        nGram n (some s1) (some s2) = none) := by
  refine ⟨?_, ?_, ?_, ?_, ?_, ?_⟩
  · intro n s1 s2 h1 h2
    simp only [nGram]
    rw [if_neg]
    intro h
    rcases h with h | h
    · exact h1 h
    · exact h2 h
  · show nGram 2 (some "asdfg") (some "asdfg") = _
    simp only [nGram]
    rw [if_neg (by decide)]
    rw [show (shingles 2 "asdfg".data ∩ shingles 2 "asdfg".data).card = 4 from by decide]
    rw [show (max (shingles 2 "asdfg".data).card (shingles 2 "asdfg".data).card : ℕ) = 4
      from by decide]
    norm_num
  · show nGram 3 (some "asdfg") (some "asdfg") = _
    simp only [nGram]
    rw [if_neg (by decide)]
    rw [show (shingles 3 "asdfg".data ∩ shingles 3 "asdfg".data).card = 3 from by decide]
    rw [show (max (shingles 3 "asdfg".data).card (shingles 3 "asdfg".data).card : ℕ) = 3
      from by decide]
    norm_num
  · show Option.map roundHalfUp2 (nGram 2 (some "asdfghj") (some "asdfhgj")) = _
    simp only [nGram]
    rw [if_neg (by decide)]
    rw [show (shingles 2 "asdfghj".data ∩ shingles 2 "asdfhgj".data).card = 3 from by decide]
    rw [show (max (shingles 2 "asdfghj".data).card (shingles 2 "asdfhgj".data).card : ℕ) = 6
      from by decide]
    rw [Option.map_some']
    rw [show (((3 : ℕ) : ℚ) / ((6 : ℕ) : ℚ)) = 1 / 2 by norm_num]
    unfold roundHalfUp2
    rw [show (1 / 2 * 100 + 1 / 2 : ℚ) = 101 / 2 by norm_num]
    rw [show (⌊(101 / 2 : ℚ)⌋ : ℤ) = 50 by
      rw [Int.floor_eq_iff] <;> norm_num]
    norm_num
  · show Option.map roundHalfUp2 (nGram 3 (some "asdfghj") (some "asdfhgj")) = _
    simp only [nGram]
    rw [if_neg (by decide)]
    rw [show (shingles 3 "asdfghj".data ∩ shingles 3 "asdfhgj".data).card = 2 from by decide]
    rw [show (max (shingles 3 "asdfghj".data).card (shingles 3 "asdfhgj".data).card : ℕ) = 5
      from by decide]
    rw [Option.map_some']
    rw [show (((2 : ℕ) : ℚ) / ((5 : ℕ) : ℚ)) = 2 / 5 by norm_num]
    unfold roundHalfUp2
    rw [show (2 / 5 * 100 + 1 / 2 : ℚ) = 81 / 2 by norm_num]
    rw [show (⌊(81 / 2 : ℚ)⌋ : ℤ) = 40 by
      rw [Int.floor_eq_iff] <;> norm_num]
    norm_num
  · intro n s1 s2 h
    simp only [nGram]
    rw [if_pos h]

/-- Witness for C4 (amended) at the equal test pair. -/
theorem nGram_spec_witness :
    nGram 2 (some "asdfg") (some "asdfg") =
      some (((shingles 2 "asdfg".data ∩ shingles 2 "asdfg".data).card : ℚ) /
        ((max (shingles 2 "asdfg".data).card (shingles 2 "asdfg".data).card : ℕ) : ℚ)) :=
  nGram_spec.1 2 "asdfg" "asdfg" (by decide) (by decide)

/-- Claim C5: the Dice–Sorensen coefficient is twice the 2-shingle overlap
divided by the sum of the two shingle-set sizes; it rounds half-up to `0.5`
on the repository test pair and is undefined when either shingle set is
empty. -/
theorem diceSorensen_spec :
    (∀ s1 s2 : String,
        shingles 2 s1.data ≠ ∅ → shingles 2 s2.data ≠ ∅ →
        diceSorensen (some s1) (some s2) =
          some ((2 * (shingles 2 s1.data ∩ shingles 2 s2.data).card : ℚ) /
            (((shingles 2 s1.data).card + (shingles 2 s2.data).card : ℕ) : ℚ)))
    ∧ Option.map roundHalfUp2 (diceSorensen (some "asdfghj") (some "asdfhgj")) = some (1 / 2)
    ∧ (∀ s1 s2 : String,
        shingles 2 s1.data = ∅ ∨ shingles 2 s2.data = ∅ →
        diceSorensen (some s1) (some s2) = none) := by
  refine ⟨?_, ?_, ?_⟩
  · intro s1 s2 h1 h2
    simp only [diceSorensen]
    rw [if_neg]
    intro h
    rcases h with h | h
    · exact h1 h
    · exact h2 h
  · simp only [diceSorensen]
    rw [if_neg (by decide)]
    rw [show (shingles 2 "asdfghj".data ∩ shingles 2 "asdfhgj".data).card = 3 from by decide]
    rw [show ((shingles 2 "asdfghj".data).card + (shingles 2 "asdfhgj".data).card : ℕ) = 12
      from by decide]
    rw [Option.map_some']
    rw [show ((2 * (3 : ℕ) : ℚ) / ((12 : ℕ) : ℚ)) = 1 / 2 by norm_num]
    unfold roundHalfUp2
    rw [show (1 / 2 * 100 + 1 / 2 : ℚ) = 101 / 2 by norm_num]
    rw [show (⌊(101 / 2 : ℚ)⌋ : ℤ) = 50 by
      rw [Int.floor_eq_iff] <;> norm_num]
    norm_num
  · intro s1 s2 h
    simp only [diceSorensen]
    rw [if_pos h]

/-- Witness for C5 at the repository test pair. -/
theorem diceSorensen_spec_witness :
    diceSorensen (some "asdfghj") (some "asdfhgj") =
      some ((2 * (shingles 2 "asdfghj".data ∩ shingles 2 "asdfhgj".data).card : ℚ) /
        (((shingles 2 "asdfghj".data).card + (shingles 2 "asdfhgj".data).card : ℕ) : ℚ)) :=
  diceSorensen_spec.1 "asdfghj" "asdfhgj" (by decide) (by decide)

/-! ## Claim theorem: categorical lookup (C6) -/

/-- Claim C6: the function built by `buildCategoricalLookup` maps a key of
the table to its value, any other input to the default, and a null input to
the default as well (propagating null only when the default is null); on the
test table it behaves as the repository test expects. -/
theorem buildCategoricalLookup_spec :
    (∀ (table : List (String × String)) (dflt : Option String) (k v : String),
        table.lookup k = some v → buildCategoricalLookup table dflt (some k) = some v)
    ∧ (∀ (table : List (String × String)) (dflt : Option String) (k : String),
        table.lookup k = none → buildCategoricalLookup table dflt (some k) = dflt)
    ∧ (∀ (table : List (String × String)) (dflt : Option String),
        buildCategoricalLookup table dflt none = dflt)
    ∧ buildCategoricalLookup [("a", "AA"), ("b", "BB")] (some "__") (some "a") = some "AA"
    ∧ buildCategoricalLookup [("a", "AA"), ("b", "BB")] (some "__") (some "b") = some "BB"
    ∧ buildCategoricalLookup [("a", "AA"), ("b", "BB")] (some "__") (some "c") = some "__"
    ∧ buildCategoricalLookup [("a", "AA"), ("b", "BB")] (some "__") none = some "__" := by
  refine ⟨?_, ?_, ?_, ?_, ?_, ?_, ?_⟩
  · intro table dflt k v h
    simp only [buildCategoricalLookup]
    rw [h]
  · intro table dflt k h
    simp only [buildCategoricalLookup]
    rw [h]
  · intro table dflt
    rfl
  · rfl
  · rfl
  · rfl
  · rfl

/-- Witness for C6 on the test table. -/
theorem buildCategoricalLookup_spec_witness :
    buildCategoricalLookup [("a", "AA"), ("b", "BB")] (some "__") (some "a") = some "AA" ∧
    buildCategoricalLookup [("a", "AA"), ("b", "BB")] (some "__") (some "c") = some "__" := by
  constructor
  · exact buildCategoricalLookup_spec.1 [("a", "AA"), ("b", "BB")] (some "__") "a" "AA" rfl
  · exact buildCategoricalLookup_spec.2.1 [("a", "AA"), ("b", "BB")] (some "__") "c" rfl

/-! ## Claim theorem: smvHashSample argument check (C10) -/

/-- Claim C10: `smvHashSample` raises `RuntimeError` with the message
`key parameter must be either a String or a Column` exactly when the key is
neither a string nor a `Column` (raising is modelled as returning
`Except.error`); string and `Column` keys never produce an error; and the
default parameters are `rate = 0.01` and `seed = 23`. -/
theorem smvHashSample_spec :
    (∀ (key : PyKey) (rate : ℚ) (seed : ℤ),
        ((∃ msg, smvHashSample key rate seed = Except.error msg) ↔
          (∀ s, key ≠ PyKey.str s) ∧ (∀ c, key ≠ PyKey.column c))
        ∧ ∀ msg, smvHashSample key rate seed = Except.error msg →
            msg = "key parameter must be either a String or a Column")
    ∧ smvHashSampleDefaultRate = 1 / 100
    ∧ smvHashSampleDefaultSeed = 23 := by
  refine ⟨?_, rfl, rfl⟩
  intro key rate seed
  cases key with
  | str s =>
    refine ⟨⟨?_, ?_⟩, ?_⟩
    · rintro ⟨msg, h⟩
      exact absurd h (by simp [smvHashSample])
    · rintro ⟨h1, _⟩
      exact absurd rfl (h1 s)
    · intro msg h
      exact absurd h (by simp [smvHashSample])
  | column c =>
    refine ⟨⟨?_, ?_⟩, ?_⟩
    · rintro ⟨msg, h⟩
      exact absurd h (by simp [smvHashSample])
    · rintro ⟨_, h2⟩
      exact absurd rfl (h2 c)
    · intro msg h
      exact absurd h (by simp [smvHashSample])
  | other v =>
    refine ⟨⟨?_, ?_⟩, ?_⟩
    · intro _
      constructor
      · intro s h; cases h
      · intro c h; cases h
    · intro _
      exact ⟨"key parameter must be either a String or a Column", rfl⟩
    · intro msg h
      simp only [smvHashSample] at h
      cases h
      rfl

/-- Witness for C10: a non-string, non-Column key yields exactly the
`RuntimeError` message, via the specification theorem. -/
theorem smvHashSample_spec_witness :
    ∃ msg, smvHashSample (PyKey.other 0) (1 / 100) 23 = Except.error msg :=
  ((smvHashSample_spec.1 (PyKey.other 0) (1 / 100) 23).1).mpr
    (And.intro (fun s h => by cases h) (fun c h => by cases h))

/-! ## Claim theorem: dynamic helper-method attachment (C9) -/

theorem foldAttach_of_underscored {R A B : Type} (F : String → (R → A → B))
    (l : List (String × (R → A → B))) (recv : String → Option (R → A → B)) (m : String)
    (hm : underscored m = true) :
    (l.foldl (fun (recv : String → Option (R → A → B)) nm =>
      if underscored nm.1 then recv
      else Function.update recv nm.1 (some (F nm.1))) recv) m = recv m := by
  induction l generalizing recv with
  | nil => rfl
  | cons p rest ih =>
    rw [List.foldl_cons]
    by_cases hp : underscored p.1
    · rw [if_pos hp]; exact ih recv
    · rw [if_neg hp, ih (Function.update recv p.1 (some (F p.1)))]
      apply Function.update_noteq
      intro h
      rw [h] at hm
      exact hp hm

theorem foldAttach_of_not_mem {R A B : Type} (F : String → (R → A → B))
    (l : List (String × (R → A → B))) (recv : String → Option (R → A → B)) (m : String)
    (hm : m ∉ l.map Prod.fst) :
    (l.foldl (fun (recv : String → Option (R → A → B)) nm =>
      if underscored nm.1 then recv
      else Function.update recv nm.1 (some (F nm.1))) recv) m = recv m := by
  induction l generalizing recv with
  | nil => rfl
  | cons p rest ih =>
    rw [List.map_cons, List.mem_cons] at hm
    push_neg at hm
    rw [List.foldl_cons]
    by_cases hp : underscored p.1
    · rw [if_pos hp]
      exact ih recv hm.2
    · rw [if_neg hp, ih (Function.update recv p.1 (some (F p.1))) hm.2]
      exact Function.update_noteq hm.1 (some (F p.1)) recv

theorem foldAttach_of_lookup {R A B : Type} (F : String → (R → A → B))
    (l : List (String × (R → A → B))) (recv : String → Option (R → A → B)) (m : String)
    (f : R → A → B) (hnd : (l.map Prod.fst).Nodup) (hl : l.lookup m = some f)
    (hm : underscored m = false) :
    (l.foldl (fun (recv : String → Option (R → A → B)) nm =>
      if underscored nm.1 then recv
      else Function.update recv nm.1 (some (F nm.1))) recv) m = some (F m) := by
  induction l generalizing recv with
  | nil => cases hl
  | cons p rest ih =>
    obtain ⟨k, g⟩ := p
    rw [List.map_cons] at hnd
    rw [List.nodup_cons] at hnd
    rw [List.foldl_cons]
    by_cases hk : m = k
    · have hp : underscored k = false := by rw [← hk]; exact hm
      rw [if_neg (by rw [hp]; exact Bool.false_ne_true)]
      rw [foldAttach_of_not_mem F rest _ m (by rw [hk]; exact hnd.1)]
      rw [hk, Function.update_same]
    · have hbeq : (m == k) = false := beq_eq_false_iff_ne.mpr hk
      have hl2 : rest.lookup m = some f := by
        rw [List.lookup, hbeq] at hl
        exact hl
      by_cases hp : underscored k
      · rw [if_pos hp]
        exact ih recv hnd.2 hl2
      · rw [if_neg hp]
        exact ih (Function.update recv k (some (F k))) hnd.2 hl2

/-- Claim C9: after `_helpCls(receiverCls, helperCls)` runs, every public
method `m` of the helper class (name not starting with an underscore) is an
attribute of the receiver class, and calling it on a receiver `r` with
arguments `args` gives exactly what constructing `helperCls r` and invoking
its method `m` gives (`f r args` for the helper's method body `f`); names
starting with an underscore are not attached and the receiver's attribute is
unchanged. -/
theorem helpCls_spec {R A B : Type} [Inhabited B] (helperCls : PyHelperCls R A B)
    (receiverCls : String → Option (R → A → B)) (m : String) :
    (helperCls.methods.map Prod.fst).Nodup →
    ((∀ f, helperCls.methods.lookup m = some f → underscored m = false →
        _helpCls receiverCls helperCls m = some ( _getUnboundMethod helperCls m)
        ∧ ∀ (r : R) (args : A), _getUnboundMethod helperCls m r args = f r args)
      ∧ (underscored m = true → _helpCls receiverCls helperCls m = receiverCls m)) := by
  intro hnd
  constructor
  · intro f hl hm
    constructor
    · show (helperCls.methods.foldl _ receiverCls) m = _
      exact foldAttach_of_lookup (fun nm => _getUnboundMethod helperCls nm)
        helperCls.methods receiverCls m f hnd hl hm
    · intro r args
      simp only [_getUnboundMethod, hl, Option.getD_some]
  · intro hm
    exact foldAttach_of_underscored (fun nm => _getUnboundMethod helperCls nm)
      helperCls.methods receiverCls m hm

/-- Witness for C9 on a two-method helper class: the public method `foo` is
attached and forwards to the helper, the private `_bar` is not attached. -/
theorem helpCls_spec_witness :
    _helpCls (fun _ => (none : Option (ℕ → ℕ → ℕ)))
        (PyHelperCls.mk [("foo", fun r args => r + args), ("_bar", fun r args => r * args)]) "foo"
      = some ( _getUnboundMethod
          (PyHelperCls.mk [("foo", fun r args => r + args), ("_bar", fun r args => r * args)])
          "foo")
    ∧ _getUnboundMethod
        (PyHelperCls.mk [("foo", fun r args => r + args), ("_bar", fun r args => r * args)])
        "foo" 2 3 = 2 + 3
    ∧ _helpCls (fun _ => (none : Option (ℕ → ℕ → ℕ)))
        (PyHelperCls.mk [("foo", fun r args => r + args), ("_bar", fun r args => r * args)]) "_bar"
      = none := by
  have h := @helpCls_spec ℕ ℕ ℕ _
    (PyHelperCls.mk [("foo", fun r args => r + args), ("_bar", fun r args => r * args)])
    (fun _ => (none : Option (ℕ → ℕ → ℕ)))
  have hnd : ((PyHelperCls.mk
      [("foo", fun (r args : ℕ) => r + args), ("_bar", fun r args => r * args)]).methods.map
        Prod.fst).Nodup := by
    simp
  have hfoo := (h "foo" hnd).1 (fun r args => r + args) (by rfl) (by rfl)
  refine ⟨hfoo.1, hfoo.2 2 3, (h "_bar" hnd).2 (by rfl)⟩

/-! ## Claim theorem: Jaro–Winkler (C3) -/

theorem jaroSim_test_value : jaroSim "asdfghj".data "asdfhgj".data = 20 / 21 := by
  have hm1 : charsAtMem "asdfghj".data
      ((jaroPairs "asdfghj".data "asdfhgj".data).map Prod.fst) = "asdfghj".data := by decide
  have hm2 : charsAtMem "asdfhgj".data
      ((jaroPairs "asdfghj".data "asdfhgj".data).map Prod.snd) = "asdfhgj".data := by decide
  have ht : transpositions "asdfghj".data "asdfhgj".data = 1 := by decide
  have hlen : (jaroPairs "asdfghj".data "asdfhgj".data).length = 7 := by decide
  simp only [jaroSim]
  rw [hm1, hm2, ht, hlen]
  rw [if_neg (by norm_num)]
  rw [show "asdfghj".data.length = 7 from by decide]
  rw [show "asdfhgj".data.length = 7 from by decide]
  norm_num

theorem jaroWinklerVal_test_value : jaroWinklerVal "asdfghj".data "asdfhgj".data = 34 / 35 := by
  have hpre : commonPrefixLen "asdfghj".data "asdfhgj".data = 4 := by decide
  simp only [jaroWinklerVal]
  rw [jaroSim_test_value, hpre]
  norm_num

/-- Claim C3: for non-empty strings, `jaroWinkler` is the standard Jaro
similarity (`jaroSim`: window-bounded greedy character matching with a
transposition penalty) plus the Winkler prefix bonus with at most 4 leading
characters and scaling factor `0.1`; it rounds half-up to `0.97` on the
repository test pair, and is undefined if either string is empty. -/
theorem jaroWinkler_spec :
    (∀ s1 s2 : String, s1 ≠ "" → s2 ≠ "" →
      jaroWinkler (some s1) (some s2) =
        some (jaroSim s1.data s2.data +
          ((min 4 (commonPrefixLen s1.data s2.data) : ℕ) : ℚ) / 10 *
            (1 - jaroSim s1.data s2.data)))
    ∧ Option.map roundHalfUp2 (jaroWinkler (some "asdfghj") (some "asdfhgj")) = some (97 / 100)
    ∧ (∀ s1 s2 : String, s1 = "" ∨ s2 = "" → jaroWinkler (some s1) (some s2) = none) := by
  refine ⟨?_, ?_, ?_⟩
  · intro s1 s2 h1 h2
    simp only [jaroWinkler]
    rw [if_neg]
    · rfl
    · intro h
      rcases h with h | h
      · exact h1 ((string_eq_empty_iff s1).mpr h)
      · exact h2 ((string_eq_empty_iff s2).mpr h)
  · simp only [jaroWinkler]
    rw [if_neg (by decide), Option.map_some', jaroWinklerVal_test_value]
    unfold roundHalfUp2
    rw [show (34 / 35 * 100 + 1 / 2 : ℚ) = 1367 / 14 by norm_num]
    rw [show (⌊(1367 / 14 : ℚ)⌋ : ℤ) = 97 by
      rw [Int.floor_eq_iff] <;> norm_num]
    norm_num
  · intro s1 s2 h
    simp only [jaroWinkler]
    rw [if_pos]
    rcases h with h | h
    · exact Or.inl ((string_eq_empty_iff s1).mp h)
    · exact Or.inr ((string_eq_empty_iff s2).mp h)

/-- Witness for C3 at the repository test pair. -/
theorem jaroWinkler_spec_witness :
    jaroWinkler (some "asdfghj") (some "asdfhgj") =
      some (jaroSim "asdfghj".data "asdfhgj".data +
        ((min 4 (commonPrefixLen "asdfghj".data "asdfhgj".data) : ℕ) : ℚ) / 10 *
          (1 - jaroSim "asdfghj".data "asdfhgj".data)) :=
  jaroWinkler_spec.1 "asdfghj" "asdfhgj" (by decide) (by decide)

/-! ## The greedy Jaro matching decomposes into per-character merges -/

theorem find?_eq_some_of_sorted (p : ℕ → Bool) :
    ∀ (l : List ℕ), l.Pairwise (· < ·) → ∀ x : ℕ,
      (l.find? p = some x ↔ (x ∈ l ∧ p x = true ∧ ∀ y ∈ l, p y = true → x ≤ y)) := by
  intro l
  induction l with
  | nil => intro _ x; simp
  | cons a l ih =>
    intro hp x
    rw [List.pairwise_cons] at hp
    by_cases ha : p a = true
    · rw [List.find?_cons_of_pos l ha]
      constructor
      · intro h
        rw [Option.some_inj] at h
        refine ⟨by rw [← h]; exact List.mem_cons_self a l, by rw [← h]; exact ha, ?_⟩
        intro y hy _
        rcases List.mem_cons.mp hy with h2 | h2
        · omega
        · have h3 := hp.1 y h2
          omega
      · rintro ⟨hx, hpx, hmin⟩
        rcases List.mem_cons.mp hx with h | h
        · rw [h]
        · have h1 := hmin a (List.mem_cons_self a l) ha
          have h2 := hp.1 x h
          omega
    · rw [List.find?_cons_of_neg l ha]
      rw [ih hp.2 x]
      constructor
      · rintro ⟨hx, hpx, hmin⟩
        refine ⟨List.mem_cons_of_mem a hx, hpx, ?_⟩
        intro y hy hpy
        rcases List.mem_cons.mp hy with h | h
        · rw [h] at hpy; exact absurd hpy ha
        · exact hmin y h hpy
      · rintro ⟨hx, hpx, hmin⟩
        rcases List.mem_cons.mp hx with h | h
        · rw [h] at hpx; exact absurd hpx ha
        · exact ⟨h, hpx, fun y hy hpy => hmin y (List.mem_cons_of_mem a hy) hpy⟩

theorem classFrom_pairwise (s : List Char) (c : Char) (i0 : ℕ) :
    (classFrom s c i0).Pairwise (· < ·) :=
  List.Pairwise.filter _ (List.pairwise_lt_range' i0 (s.length - i0) 1)

theorem mem_classFrom (s : List Char) (c : Char) (i0 j : ℕ) :
    j ∈ classFrom s c i0 ↔ (i0 ≤ j ∧ s.get? j = some c) := by
  unfold classFrom
  rw [List.mem_filter, List.mem_range'_1]
  constructor
  · rintro ⟨⟨h1, _⟩, h3⟩
    exact ⟨h1, of_decide_eq_true h3⟩
  · rintro ⟨h1, h2⟩
    have hjlen : j < s.length := by
      by_contra hc
      rw [not_lt] at hc
      rw [List.get?_eq_none.mpr hc] at h2
      cases h2
    refine ⟨⟨h1, by omega⟩, decide_eq_true h2⟩

theorem availOf_pairwise (s : List Char) (c : Char) (U : List ℕ) :
    ((classFrom s c 0).filter (fun j => decide (j ∉ U))).Pairwise (· < ·) :=
  List.Pairwise.filter _ (classFrom_pairwise s c 0)

theorem mem_availOf (s : List Char) (c : Char) (U : List ℕ) (j : ℕ) :
    j ∈ (classFrom s c 0).filter (fun j => decide (j ∉ U)) ↔
      (s.get? j = some c ∧ j ∉ U) := by
  rw [List.mem_filter, mem_classFrom]
  constructor
  · rintro ⟨⟨_, h2⟩, h3⟩
    exact ⟨h2, of_decide_eq_true h3⟩
  · rintro ⟨h2, h3⟩
    exact ⟨⟨Nat.zero_le j, h2⟩, decide_eq_true h3⟩

theorem findMatch_eq_minFeasible (s2 : List Char) (U : List ℕ) (c : Char) (i w : ℕ) :
    findMatch s2 U c (i - w) (i + w + 1 - (i - w)) =
      minFeasible w i ((classFrom s2 c 0).filter (fun j => decide (j ∉ U))) := by
  unfold findMatch minFeasible
  cases h : (List.range' (i - w) (i + w + 1 - (i - w))).find?
      (fun j => decide (j ∉ U ∧ s2.get? j = some c)) with
  | none =>
    rw [List.find?_eq_none] at h
    symm
    rw [List.find?_eq_none]
    intro j hj hpj
    rw [mem_availOf] at hj
    have hwin : i ≤ j + w ∧ j ≤ i + w := of_decide_eq_true hpj
    have hjr : j ∈ List.range' (i - w) (i + w + 1 - (i - w)) := by
      rw [List.mem_range'_1]; omega
    exact h j hjr (decide_eq_true ⟨hj.2, hj.1⟩)
  | some x =>
    rw [find?_eq_some_of_sorted _ _ (List.pairwise_lt_range' _ _ 1) x] at h
    obtain ⟨hxmem, hxp, hxmin⟩ := h
    rw [List.mem_range'_1] at hxmem
    have hx : x ∉ U ∧ s2.get? x = some c := of_decide_eq_true hxp
    symm
    rw [find?_eq_some_of_sorted _ _ (availOf_pairwise s2 c U) x]
    refine ⟨(mem_availOf s2 c U x).mpr ⟨hx.2, hx.1⟩,
      decide_eq_true ⟨by omega, by omega⟩, ?_⟩
    intro y hy hpy
    rw [mem_availOf] at hy
    have hwiny : i ≤ y + w ∧ y ≤ i + w := of_decide_eq_true hpy
    have hyr : y ∈ List.range' (i - w) (i + w + 1 - (i - w)) := by
      rw [List.mem_range'_1]; omega
    exact hxmin y hyr (decide_eq_true ⟨hy.2, hy.1⟩)

theorem cgOp_cons (w i : ℕ) (I J : List ℕ) :
    cgOp w (i :: I) J = match minFeasible w i J with
      | some j => (i, j) :: cgOp w I (J.erase j)
      | none => cgOp w I J := rfl

theorem cgOp_nil_right (w : ℕ) : ∀ I : List ℕ, cgOp w I [] = [] := by
  intro I
  induction I with
  | nil => rfl
  | cons i I ih =>
    rw [cgOp_cons]
    show cgOp w I ([] : List ℕ) = []
    exact ih

theorem cgOp_dead (w b : ℕ) :
    ∀ (I J : List ℕ), (∀ i ∈ I, b + w < i) → cgOp w I (b :: J) = cgOp w I J := by
  intro I
  induction I with
  | nil => intro J _; rfl
  | cons i I ih =>
    intro J hdead
    have hbi : b + w < i := hdead i (List.mem_cons_self i I)
    have hmf : minFeasible w i (b :: J) = minFeasible w i J := by
      unfold minFeasible
      rw [List.find?_cons_of_neg]
      rw [decide_eq_true_eq]
      omega
    rw [cgOp_cons, cgOp_cons, hmf]
    cases hj : minFeasible w i J with
    | none =>
      simp only []
      exact ih J (fun x hx => hdead x (List.mem_cons_of_mem i hx))
    | some j =>
      simp only []
      have hj2 : J.find? (fun j => decide (i ≤ j + w ∧ j ≤ i + w)) = some j := hj
      have hjp := List.find?_some hj2
      rw [decide_eq_true_eq] at hjp
      have hbj : ¬(b == j) = true := by
        rw [beq_iff_eq]
        omega
      rw [List.erase_cons_tail hbj]
      rw [ih (J.erase j) (fun x hx => hdead x (List.mem_cons_of_mem i hx))]

theorem cgOp_eq_jmerge_aux (w : ℕ) (n : ℕ) :
    ∀ (I J : List ℕ), I.length + J.length ≤ n → I.Pairwise (· < ·) →
      J.Pairwise (· < ·) → cgOp w I J = jmerge w I J := by
  induction n with
  | zero =>
    intro I J hn _ _
    have hI : I = [] := List.length_eq_zero.mp (by omega)
    rw [hI]
    simp [cgOp, jmerge]
  | succ n ih =>
    intro I J hn hI hJ
    cases I with
    | nil => simp [cgOp, jmerge]
    | cons i I =>
      cases J with
      | nil => rw [cgOp_nil_right, jmerge]
      | cons b J =>
        rw [List.length_cons, List.length_cons] at hn
        rw [List.pairwise_cons] at hI hJ
        by_cases hd : b + w < i
        · rw [cgOp_dead w b (i :: I) J
            (by intro x hx
                rcases List.mem_cons.mp hx with h | h
                · omega
                · have := hI.1 x h; omega)]
          rw [ih (i :: I) J (by simp; omega) (List.pairwise_cons.mpr hI) hJ.2]
          rw [jmerge]
          rw [if_neg (by omega), if_pos hd]
        · by_cases he : i + w < b
          · have hmf : minFeasible w i (b :: J) = none := by
              unfold minFeasible
              rw [List.find?_eq_none]
              intro y hy
              rw [decide_eq_true_eq]
              rcases List.mem_cons.mp hy with h | h
              · omega
              · have := hJ.1 y h; omega
            rw [cgOp_cons, hmf]
            simp only []
            rw [ih I (b :: J) (by simp; omega) hI.2 (List.pairwise_cons.mpr hJ)]
            rw [jmerge, if_pos he]
          · have hmf : minFeasible w i (b :: J) = some b := by
              unfold minFeasible
              rw [List.find?_cons_of_pos]
              rw [decide_eq_true_eq]
              omega
            rw [cgOp_cons, hmf]
            simp only []
            rw [List.erase_cons_head]
            rw [ih I J (by omega) hI.2 hJ.2]
            rw [jmerge, if_neg he, if_neg hd]

theorem cgOp_eq_jmerge (w : ℕ) (I J : List ℕ) (hI : I.Pairwise (· < ·))
    (hJ : J.Pairwise (· < ·)) : cgOp w I J = jmerge w I J :=
  cgOp_eq_jmerge_aux w (I.length + J.length) I J (Nat.le_refl _) hI hJ

theorem jmerge_swap_aux (w : ℕ) (n : ℕ) :
    ∀ (I J : List ℕ), I.length + J.length ≤ n →
      jmerge w I J = (jmerge w J I).map Prod.swap := by
  induction n with
  | zero =>
    intro I J hn
    have hI : I = [] := List.length_eq_zero.mp (by omega)
    have hJ : J = [] := List.length_eq_zero.mp (by omega)
    rw [hI, hJ]
    simp [jmerge]
  | succ n ih =>
    intro I J hn
    cases I with
    | nil => cases J <;> simp [jmerge]
    | cons i I =>
      cases J with
      | nil => simp [jmerge]
      | cons b J =>
        rw [List.length_cons, List.length_cons] at hn
        rw [jmerge, jmerge]
        by_cases h1 : i + w < b
        · rw [if_pos h1, if_neg (by omega), if_pos h1]
          exact ih I (b :: J) (by simp; omega)
        · rw [if_neg h1]
          by_cases h2 : b + w < i
          · rw [if_pos h2, if_pos h2]
            exact ih (i :: I) J (by simp; omega)
          · rw [if_neg h2, if_neg h2, if_neg h1]
            rw [List.map_cons]
            rw [ih I J (by omega)]
            rfl

theorem jmerge_swap (w : ℕ) (I J : List ℕ) :
    jmerge w I J = (jmerge w J I).map Prod.swap :=
  jmerge_swap_aux w (I.length + J.length) I J (Nat.le_refl _)

theorem jmerge_self (w : ℕ) (I : List ℕ) : jmerge w I I = I.map (fun x => (x, x)) := by
  induction I with
  | nil => simp [jmerge]
  | cons a I ih =>
    rw [jmerge, if_neg (by omega), if_neg (by omega), ih]
    rfl

theorem mem_jmerge_aux (w : ℕ) (n : ℕ) :
    ∀ (I J : List ℕ) (p : ℕ × ℕ), I.length + J.length ≤ n →
      p ∈ jmerge w I J → p.1 ∈ I ∧ p.2 ∈ J := by
  induction n with
  | zero =>
    intro I J p hn hp
    have hI : I = [] := List.length_eq_zero.mp (by omega)
    rw [hI, show jmerge w [] J = [] from by simp [jmerge]] at hp
    cases hp
  | succ n ih =>
    intro I J p hn
    cases I with
    | nil =>
      intro h
      rw [show jmerge w [] J = [] from by simp [jmerge]] at h
      cases h
    | cons i I =>
      cases J with
      | nil => rw [jmerge]; intro h; cases h
      | cons b J =>
        rw [List.length_cons, List.length_cons] at hn
        rw [jmerge]
        by_cases h1 : i + w < b
        · rw [if_pos h1]
          intro h
          have := ih I (b :: J) p (by simp; omega) h
          exact ⟨List.mem_cons_of_mem i this.1, this.2⟩
        · rw [if_neg h1]
          by_cases h2 : b + w < i
          · rw [if_pos h2]
            intro h
            have := ih (i :: I) J p (by simp; omega) h
            exact ⟨this.1, List.mem_cons_of_mem b this.2⟩
          · rw [if_neg h2]
            intro h
            rcases List.mem_cons.mp h with h | h
            · rw [h]
              exact ⟨List.mem_cons_self i I, List.mem_cons_self b J⟩
            · have := ih I J p (by omega) h
              exact ⟨List.mem_cons_of_mem i this.1, List.mem_cons_of_mem b this.2⟩

theorem mem_jmerge (w : ℕ) (I J : List ℕ) (p : ℕ × ℕ) :
    p ∈ jmerge w I J → p.1 ∈ I ∧ p.2 ∈ J :=
  mem_jmerge_aux w (I.length + J.length) I J p (Nat.le_refl _)

theorem classFrom_nodup (s : List Char) (c : Char) (i0 : ℕ) : (classFrom s c i0).Nodup :=
  (classFrom_pairwise s c i0).imp (fun h => Nat.ne_of_lt h)

theorem classFrom_of_ge (s : List Char) (c : Char) (i0 : ℕ) (h : s.length ≤ i0) :
    classFrom s c i0 = [] := by
  unfold classFrom
  rw [show s.length - i0 = 0 by omega]
  rfl

theorem classFrom_succ_of_eq (s : List Char) (c : Char) (i0 : ℕ) (h : s.get? i0 = some c) :
    classFrom s c i0 = i0 :: classFrom s c (i0 + 1) := by
  have hlt : i0 < s.length := by
    by_contra hc
    rw [not_lt] at hc
    rw [List.get?_eq_none.mpr hc] at h
    cases h
  unfold classFrom
  rw [show s.length - i0 = (s.length - (i0 + 1)) + 1 by omega]
  rw [List.range'_succ]
  rw [List.filter_cons]
  rw [if_pos (decide_eq_true h)]

theorem classFrom_succ_of_ne (s : List Char) (c : Char) (i0 : ℕ) (h : s.get? i0 ≠ some c) :
    classFrom s c i0 = classFrom s c (i0 + 1) := by
  by_cases hlt : i0 < s.length
  · unfold classFrom
    rw [show s.length - i0 = (s.length - (i0 + 1)) + 1 by omega]
    rw [List.range'_succ]
    rw [List.filter_cons]
    rw [if_neg]
    rw [decide_eq_true_eq]
    exact h
  · rw [classFrom_of_ge s c i0 (by omega), classFrom_of_ge s c (i0 + 1) (by omega)]

theorem filter_cons_erase (j : ℕ) (U : List ℕ) :
    ∀ l : List ℕ, l.Nodup →
      l.filter (fun x => decide (x ∉ j :: U)) = (l.filter (fun x => decide (x ∉ U))).erase j := by
  intro l
  induction l with
  | nil => intro _; rfl
  | cons a l ih =>
    intro hnd
    rw [List.nodup_cons] at hnd
    rw [List.filter_cons, List.filter_cons]
    by_cases haj : a = j
    · subst haj
      rw [if_neg (by simp)]
      have hLHS : l.filter (fun x => decide (x ∉ a :: U)) = l.filter (fun x => decide (x ∉ U)) := by
        apply List.filter_congr
        intro x hx
        have hxa : x ≠ a := fun he => hnd.1 (he ▸ hx)
        simp [List.mem_cons, hxa]
      rw [hLHS]
      by_cases haU : a ∈ U
      · rw [if_neg (by simp [haU])]
        rw [List.erase_of_not_mem]
        intro hc
        rw [List.mem_filter] at hc
        exact (of_decide_eq_true hc.2) haU
      · rw [if_pos (by simp [haU])]
        rw [List.erase_cons_head]
    · have h1 : (decide (a ∉ j :: U)) = (decide (a ∉ U)) := by
        simp [List.mem_cons, haj]
      rw [h1]
      by_cases haU : a ∈ U
      · rw [if_neg (by simp [haU]), if_neg (by simp [haU])]
        exact ih hnd.2
      · rw [if_pos (by simp [haU]), if_pos (by simp [haU])]
        rw [List.erase_cons_tail (by rw [beq_iff_eq]; exact haj)]
        rw [ih hnd.2]

theorem jaroPairsAux_fst_lb (s2 : List Char) (w : ℕ) :
    ∀ (rest : List Char) (i0 : ℕ) (U : List ℕ) (p : ℕ × ℕ),
      p ∈ jaroPairsAux s2 w rest i0 U → i0 ≤ p.1 := by
  intro rest
  induction rest with
  | nil => intro i0 U p h; cases h
  | cons c rest ih =>
    intro i0 U p
    rw [jaroPairsAux]
    cases hf : findMatch s2 U c (i0 - w) (i0 + w + 1 - (i0 - w)) with
    | some j =>
      simp only []
      intro h
      rcases List.mem_cons.mp h with h | h
      · rw [h]
      · have := ih (i0 + 1) (j :: U) p h
        omega
    | none =>
      simp only []
      intro h
      have := ih (i0 + 1) U p h
      omega

theorem some_ne_of_ne {c ch : Char} (h : ¬c = ch) : ¬(some ch = some c) :=
  fun hc => h (Option.some_inj.mp hc).symm

/-- The greedy Jaro matching decomposes per character class: the matched
pairs whose left position carries character `c` are exactly the greedy
interval matching of the positions of `c` in (the rest of) `s1` against the
still-available positions of `c` in `s2`. -/
theorem jaroPairsAux_class (s1 s2 : List Char) (w : ℕ) (rest : List Char) :
    ∀ (i0 : ℕ) (U : List ℕ), rest = List.drop i0 s1 → ∀ c,
      (jaroPairsAux s2 w rest i0 U).filter (fun p => decide (s1.get? p.1 = some c)) =
        cgOp w (classFrom s1 c i0) ((classFrom s2 c 0).filter (fun j => decide (j ∉ U))) := by
  induction rest with
  | nil =>
    intro i0 U hdrop c
    rw [classFrom_of_ge s1 c i0 (List.drop_eq_nil_iff_le.mp hdrop.symm)]
    rfl
  | cons ch rest ih =>
    intro i0 U hdrop c
    have hch : s1.get? i0 = some ch := by
      have h0 : (List.drop i0 s1).get? 0 = s1.get? (i0 + 0) := List.get?_drop s1 i0 0
      rw [← hdrop] at h0
      rw [Nat.add_zero] at h0
      exact h0.symm
    have hrest : rest = List.drop (i0 + 1) s1 := by
      have h1 : List.drop 1 (List.drop i0 s1) = List.drop (i0 + 1) s1 := List.drop_drop 1 i0 s1
      rw [← hdrop] at h1
      rw [show List.drop 1 (ch :: rest) = rest from rfl] at h1
      exact h1
    rw [jaroPairsAux]
    rw [findMatch_eq_minFeasible s2 U ch i0 w]
    cases hmf : minFeasible w i0 ((classFrom s2 ch 0).filter (fun j => decide (j ∉ U))) with
    | some j =>
      simp only []
      have hj2 : ((classFrom s2 ch 0).filter (fun j => decide (j ∉ U))).find?
          (fun j => decide (i0 ≤ j + w ∧ j ≤ i0 + w)) = some j := hmf
      have hjmem := List.mem_of_find?_eq_some hj2
      rw [mem_availOf] at hjmem
      rw [List.filter_cons]
      by_cases hcc : c = ch
      · rw [if_pos (by rw [decide_eq_true_eq, hcc]; exact hch)]
        rw [ih (i0 + 1) (j :: U) hrest c]
        rw [classFrom_succ_of_eq s1 c i0 (by rw [hcc]; exact hch)]
        rw [cgOp_cons]
        rw [hcc, hmf]
        simp only []
        rw [← filter_cons_erase j U (classFrom s2 ch 0) (classFrom_nodup s2 ch 0)]
      · rw [if_neg (by rw [decide_eq_true_eq, hch]; exact some_ne_of_ne hcc)]
        rw [ih (i0 + 1) (j :: U) hrest c]
        rw [classFrom_succ_of_ne s1 c i0 (by rw [hch]; exact some_ne_of_ne hcc)]
        have hflt : (classFrom s2 c 0).filter (fun x => decide (x ∉ j :: U)) =
            (classFrom s2 c 0).filter (fun x => decide (x ∉ U)) := by
          apply List.filter_congr
          intro x hx
          have hxc := (mem_classFrom s2 c 0 x).mp hx
          have hxj : x ≠ j := by
            intro he
            rw [he, hjmem.1] at hxc
            exact hcc (Option.some_inj.mp hxc.2).symm
          simp [List.mem_cons, hxj]
        rw [hflt]
    | none =>
      simp only []
      rw [ih (i0 + 1) U hrest c]
      by_cases hcc : c = ch
      · rw [classFrom_succ_of_eq s1 c i0 (by rw [hcc]; exact hch)]
        rw [cgOp_cons]
        rw [hcc, hmf]
      · rw [classFrom_succ_of_ne s1 c i0 (by rw [hch]; exact some_ne_of_ne hcc)]

theorem jaroPairsAux_fst_ub (s1 s2 : List Char) (w : ℕ) :
    ∀ (rest : List Char) (i0 : ℕ) (U : List ℕ) (p : ℕ × ℕ), rest = List.drop i0 s1 →
      p ∈ jaroPairsAux s2 w rest i0 U → p.1 < s1.length := by
  intro rest
  induction rest with
  | nil => intro i0 U p _ h; cases h
  | cons ch rest ih =>
    intro i0 U p hdrop
    have hi0 : i0 < s1.length := by
      by_contra hc
      rw [not_lt] at hc
      rw [List.drop_eq_nil_iff_le.mpr hc] at hdrop
      cases hdrop
    have hrest : rest = List.drop (i0 + 1) s1 := by
      have h1 : List.drop 1 (List.drop i0 s1) = List.drop (i0 + 1) s1 := List.drop_drop 1 i0 s1
      rw [← hdrop] at h1
      rw [show List.drop 1 (ch :: rest) = rest from rfl] at h1
      exact h1
    rw [jaroPairsAux]
    cases hf : findMatch s2 U ch (i0 - w) (i0 + w + 1 - (i0 - w)) with
    | some j =>
      simp only []
      intro h
      rcases List.mem_cons.mp h with h | h
      · rw [h]; exact hi0
      · exact ih (i0 + 1) (j :: U) p hrest h
    | none =>
      simp only []
      intro h
      exact ih (i0 + 1) U p hrest h

theorem jaroPairs_class (s1 s2 : List Char) (c : Char) :
    (jaroPairs s1 s2).filter (fun p => decide (s1.get? p.1 = some c)) =
      cgOp (matchWindow s1.length s2.length) (classFrom s1 c 0) (classFrom s2 c 0) := by
  unfold jaroPairs
  rw [jaroPairsAux_class s1 s2 (matchWindow s1.length s2.length) s1 0 []
    (List.drop_zero s1).symm c]
  have h : (classFrom s2 c 0).filter (fun j => decide (j ∉ ([] : List ℕ))) =
      classFrom s2 c 0 := by
    apply List.filter_eq_self.mpr
    intro a _
    simp
  rw [h]

theorem mem_jaroPairs_iff (s1 s2 : List Char) (i j : ℕ) :
    (i, j) ∈ jaroPairs s1 s2 ↔
      ∃ c, s1.get? i = some c ∧
        (i, j) ∈ jmerge (matchWindow s1.length s2.length)
          (classFrom s1 c 0) (classFrom s2 c 0) := by
  constructor
  · intro h
    have hub : i < s1.length :=
      jaroPairsAux_fst_ub s1 s2 (matchWindow s1.length s2.length) s1 0 [] (i, j)
        (List.drop_zero s1).symm h
    obtain ⟨c, hc⟩ := Option.ne_none_iff_exists'.mp
      (fun hn => absurd (List.get?_eq_none.mp hn) (Nat.not_le.mpr hub))
    refine ⟨c, hc, ?_⟩
    rw [← cgOp_eq_jmerge _ _ _ (classFrom_pairwise s1 c 0) (classFrom_pairwise s2 c 0)]
    rw [← jaroPairs_class s1 s2 c]
    rw [List.mem_filter]
    exact ⟨h, decide_eq_true hc⟩
  · rintro ⟨c, hc, hm⟩
    rw [← cgOp_eq_jmerge _ _ _ (classFrom_pairwise s1 c 0) (classFrom_pairwise s2 c 0)] at hm
    rw [← jaroPairs_class s1 s2 c] at hm
    exact List.mem_of_mem_filter hm

theorem matchWindow_comm (l1 l2 : ℕ) : matchWindow l1 l2 = matchWindow l2 l1 := by
  unfold matchWindow
  rw [Nat.max_comm]

theorem mem_jaroPairs_swap (s1 s2 : List Char) (i j : ℕ) :
    (i, j) ∈ jaroPairs s1 s2 ↔ (j, i) ∈ jaroPairs s2 s1 := by
  rw [mem_jaroPairs_iff, mem_jaroPairs_iff]
  constructor
  · rintro ⟨c, hc, hm⟩
    have hj := (mem_jmerge _ _ _ _ hm).2
    rw [mem_classFrom] at hj
    refine ⟨c, hj.2, ?_⟩
    rw [matchWindow_comm s2.length s1.length]
    rw [jmerge_swap]
    rw [List.mem_map]
    exact ⟨(i, j), hm, rfl⟩
  · rintro ⟨c, hc, hm⟩
    have hj := (mem_jmerge _ _ _ _ hm).2
    rw [mem_classFrom] at hj
    refine ⟨c, hj.2, ?_⟩
    rw [matchWindow_comm s1.length s2.length]
    rw [jmerge_swap]
    rw [List.mem_map]
    exact ⟨(j, i), hm, rfl⟩

theorem jaroPairsAux_pairwise_fst (s2 : List Char) (w : ℕ) :
    ∀ (rest : List Char) (i0 : ℕ) (U : List ℕ),
      (jaroPairsAux s2 w rest i0 U).Pairwise (fun p q => p.1 < q.1) := by
  intro rest
  induction rest with
  | nil => intro _ _; exact List.Pairwise.nil
  | cons c rest ih =>
    intro i0 U
    rw [jaroPairsAux]
    cases hf : findMatch s2 U c (i0 - w) (i0 + w + 1 - (i0 - w)) with
    | some j =>
      simp only []
      rw [List.pairwise_cons]
      constructor
      · intro p hp
        have := jaroPairsAux_fst_lb s2 w rest (i0 + 1) (j :: U) p hp
        show i0 < p.1
        omega
      · exact ih (i0 + 1) (j :: U)
    | none =>
      simp only []
      exact ih (i0 + 1) U

theorem jaroPairs_nodup (s1 s2 : List Char) : (jaroPairs s1 s2).Nodup :=
  (jaroPairsAux_pairwise_fst s2 (matchWindow s1.length s2.length) s1 0 []).imp
    (fun h => by intro he; rw [he] at h; exact Nat.lt_irrefl _ h)

theorem jaroPairs_toFinset_swap (s1 s2 : List Char) :
    (jaroPairs s1 s2).toFinset = (jaroPairs s2 s1).toFinset.image Prod.swap := by
  apply Finset.ext
  intro p
  rw [List.mem_toFinset, Finset.mem_image]
  constructor
  · intro h
    refine ⟨(p.2, p.1), ?_, rfl⟩
    rw [List.mem_toFinset]
    exact (mem_jaroPairs_swap s1 s2 p.1 p.2).mp h
  · rintro ⟨q, hq, hqp⟩
    rw [List.mem_toFinset] at hq
    rw [← hqp]
    exact (mem_jaroPairs_swap s2 s1 q.1 q.2).mp hq

theorem jaroPairs_length_symm (s1 s2 : List Char) :
    (jaroPairs s1 s2).length = (jaroPairs s2 s1).length := by
  rw [← List.toFinset_card_of_nodup (jaroPairs_nodup s1 s2)]
  rw [← List.toFinset_card_of_nodup (jaroPairs_nodup s2 s1)]
  rw [jaroPairs_toFinset_swap s1 s2]
  exact Finset.card_image_of_injective _ Prod.swap_injective

theorem charsAtMem_congr (s : List Char) (l l' : List ℕ) (h : ∀ x, x ∈ l ↔ x ∈ l') :
    charsAtMem s l = charsAtMem s l' := by
  unfold charsAtMem
  congr 1
  apply List.filter_congr
  intro x _
  rw [decide_eq_decide]
  exact h x

theorem mem_map_fst_jaroPairs (s1 s2 : List Char) (x : ℕ) :
    x ∈ (jaroPairs s1 s2).map Prod.fst ↔ ∃ j, (x, j) ∈ jaroPairs s1 s2 := by
  rw [List.mem_map]
  constructor
  · rintro ⟨p, hp, hpx⟩
    exact ⟨p.2, by rw [show (x, p.2) = p from by rw [← hpx]]; exact hp⟩
  · rintro ⟨j, hj⟩
    exact ⟨(x, j), hj, rfl⟩

theorem mem_map_snd_jaroPairs (s1 s2 : List Char) (x : ℕ) :
    x ∈ (jaroPairs s1 s2).map Prod.snd ↔ ∃ i, (i, x) ∈ jaroPairs s1 s2 := by
  rw [List.mem_map]
  constructor
  · rintro ⟨p, hp, hpx⟩
    exact ⟨p.1, by rw [show (p.1, x) = p from by rw [← hpx]]; exact hp⟩
  · rintro ⟨i, hi⟩
    exact ⟨(i, x), hi, rfl⟩

theorem countP_zip_ne_comm : ∀ (a b : List Char),
    ((a.zip b).countP (fun p => decide (p.1 ≠ p.2))) =
      ((b.zip a).countP (fun p => decide (p.1 ≠ p.2))) := by
  intro a
  induction a with
  | nil => intro b; cases b <;> rfl
  | cons x a ih =>
    intro b
    cases b with
    | nil => rfl
    | cons y b =>
      rw [List.zip_cons_cons, List.zip_cons_cons, List.countP_cons, List.countP_cons, ih b]
      have hxy : ((x, y).1 ≠ (x, y).2) ↔ ((y, x).1 ≠ (y, x).2) := ne_comm
      rw [decide_eq_decide.mpr hxy]

theorem transpositions_comm (m1 m2 : List Char) :
    transpositions m1 m2 = transpositions m2 m1 := by
  unfold transpositions
  rw [countP_zip_ne_comm]

theorem commonPrefixLen_comm : ∀ (a b : List Char), commonPrefixLen a b = commonPrefixLen b a := by
  intro a
  induction a with
  | nil => intro b; cases b <;> rfl
  | cons x a ih =>
    intro b
    cases b with
    | nil => rfl
    | cons y b =>
      rw [commonPrefixLen, commonPrefixLen]
      by_cases h : x = y
      · rw [if_pos h, if_pos h.symm, ih b]
      · rw [if_neg h, if_neg (fun he => h he.symm)]

theorem jaroSim_comm (a b : List Char) : jaroSim a b = jaroSim b a := by
  have hlen := jaroPairs_length_symm a b
  have hm1 : charsAtMem a ((jaroPairs a b).map Prod.fst) =
      charsAtMem a ((jaroPairs b a).map Prod.snd) := by
    apply charsAtMem_congr
    intro x
    rw [mem_map_fst_jaroPairs, mem_map_snd_jaroPairs]
    constructor
    · rintro ⟨j, hj⟩; exact ⟨j, (mem_jaroPairs_swap a b x j).mp hj⟩
    · rintro ⟨j, hj⟩; exact ⟨j, (mem_jaroPairs_swap a b x j).mpr hj⟩
  have hm2 : charsAtMem b ((jaroPairs a b).map Prod.snd) =
      charsAtMem b ((jaroPairs b a).map Prod.fst) := by
    apply charsAtMem_congr
    intro x
    rw [mem_map_fst_jaroPairs, mem_map_snd_jaroPairs]
    constructor
    · rintro ⟨i, hi⟩; exact ⟨i, (mem_jaroPairs_swap a b i x).mp hi⟩
    · rintro ⟨i, hi⟩; exact ⟨i, (mem_jaroPairs_swap a b i x).mpr hi⟩
  simp only [jaroSim]
  rw [hlen, hm1, hm2]
  rw [transpositions_comm (charsAtMem a ((jaroPairs b a).map Prod.snd))
    (charsAtMem b ((jaroPairs b a).map Prod.fst))]
  by_cases hz : (jaroPairs b a).length = 0
  · rw [if_pos hz, if_pos hz]
  · rw [if_neg hz, if_neg hz]
    ring

theorem jaroWinklerVal_comm (a b : List Char) : jaroWinklerVal a b = jaroWinklerVal b a := by
  unfold jaroWinklerVal
  rw [jaroSim_comm, commonPrefixLen_comm]

/-! ## Claim theorem: symmetry of the four metrics (C8) -/

theorem nGram_symm (n : ℕ) (x y : Option String) : nGram n x y = nGram n y x := by
  cases x with
  | none => cases y <;> rfl
  | some s1 =>
    cases y with
    | none => rfl
    | some s2 =>
      simp only [nGram]
      apply if_congr or_comm
      · rfl
      · rw [Finset.inter_comm, Nat.max_comm]

/-- Claim C8: each of the four similarity metrics is symmetric in its two
arguments, for all inputs including null ones and the undefined cases:
`nGram n` (so in particular `nGram2` and `nGram3`), `diceSorensen`,
`normlevenshtein` and `jaroWinkler`.  For the Jaro matching this rests on the
per-character decomposition of the greedy matching into interval merges
(`jaroPairsAux_class`) and the symmetry of those merges (`jmerge_swap`). -/
theorem distMetrics_symm :
    (∀ n : ℕ, ∀ x y : Option String, nGram n x y = nGram n y x)
    ∧ (∀ x y, nGram2 x y = nGram2 y x)
    ∧ (∀ x y, nGram3 x y = nGram3 y x)
    ∧ (∀ x y, diceSorensen x y = diceSorensen y x)
    ∧ (∀ x y, normlevenshtein x y = normlevenshtein y x)
    ∧ (∀ x y, jaroWinkler x y = jaroWinkler y x) := by
  refine ⟨nGram_symm, nGram_symm 2, nGram_symm 3, ?_, ?_, ?_⟩
  · intro x y
    cases x with
    | none => cases y <;> rfl
    | some s1 =>
      cases y with
      | none => rfl
      | some s2 =>
        simp only [diceSorensen]
        apply if_congr or_comm
        · rfl
        · rw [Finset.inter_comm, Nat.add_comm]
  · intro x y
    cases x with
    | none => cases y <;> rfl
    | some s1 =>
      cases y with
      | none => rfl
      | some s2 =>
        simp only [normlevenshtein]
        apply if_congr and_comm
        · rfl
        · rw [levTable_eq_levRec, levTable_eq_levRec, levRec_comm, Nat.max_comm]
  · intro x y
    cases x with
    | none => cases y <;> rfl
    | some s1 =>
      cases y with
      | none => rfl
      | some s2 =>
        simp only [jaroWinkler]
        apply if_congr or_comm
        · rfl
        · rw [jaroWinklerVal_comm]

/-! ## Reflexivity of the metrics (C7) -/

theorem mem_jaroPairs_self (a : List Char) (i j : ℕ) :
    (i, j) ∈ jaroPairs a a ↔ i = j ∧ i < a.length := by
  rw [mem_jaroPairs_iff]
  constructor
  · rintro ⟨c, hc, hm⟩
    rw [jmerge_self, List.mem_map] at hm
    obtain ⟨x, hx, hxij⟩ := hm
    have h1 : x = i := congrArg Prod.fst hxij
    have h2 : x = j := congrArg Prod.snd hxij
    refine ⟨by omega, ?_⟩
    by_contra hlen
    rw [not_lt] at hlen
    rw [List.get?_eq_none.mpr hlen] at hc
    cases hc
  · rintro ⟨hij, hlen⟩
    obtain ⟨c, hc⟩ := Option.ne_none_iff_exists'.mp
      (fun hn => absurd (List.get?_eq_none.mp hn) (Nat.not_le.mpr hlen))
    refine ⟨c, hc, ?_⟩
    rw [jmerge_self, List.mem_map]
    refine ⟨i, ?_, by rw [hij]⟩
    rw [mem_classFrom]
    exact ⟨Nat.zero_le i, hc⟩

theorem jaroPairs_self_length (a : List Char) : (jaroPairs a a).length = a.length := by
  rw [← List.toFinset_card_of_nodup (jaroPairs_nodup a a)]
  have h : (jaroPairs a a).toFinset = (Finset.range a.length).image (fun i => (i, i)) := by
    apply Finset.ext
    intro p
    rw [List.mem_toFinset, Finset.mem_image]
    constructor
    · intro hp
      have h2 := (mem_jaroPairs_self a p.1 p.2).mp hp
      refine ⟨p.1, Finset.mem_range.mpr h2.2, ?_⟩
      show (p.1, p.1) = p
      nth_rewrite 2 [h2.1]
      exact Prod.mk.eta
    · rintro ⟨x, hx, hxp⟩
      rw [← hxp]
      exact (mem_jaroPairs_self a x x).mpr ⟨rfl, Finset.mem_range.mp hx⟩
  rw [h, Finset.card_image_of_injective _ (fun x y hxy => congrArg Prod.fst hxy),
    Finset.card_range]

theorem filterMap_get?_range : ∀ s : List Char,
    (List.range s.length).filterMap (fun i => s.get? i) = s := by
  intro s
  induction s with
  | nil => rfl
  | cons a s ih =>
    rw [List.length_cons, List.range_succ_eq_map]
    rw [List.filterMap_cons]
    simp only [List.get?]
    rw [List.filterMap_map]
    rw [show ((fun i => (a :: s).get? i) ∘ Nat.succ) = (fun i => s.get? i) from rfl]
    rw [ih]

theorem charsAtMem_full (s : List Char) (l : List ℕ) (h : ∀ x, x ∈ l ↔ x < s.length) :
    charsAtMem s l = s := by
  unfold charsAtMem
  have hf : (List.range s.length).filter (fun i => decide (i ∈ l)) = List.range s.length := by
    apply List.filter_eq_self.mpr
    intro x hx
    rw [decide_eq_true_eq, h x]
    exact List.mem_range.mp hx
  rw [hf, filterMap_get?_range]

theorem countP_zip_self : ∀ s : List Char,
    ((s.zip s).countP (fun p => decide (p.1 ≠ p.2))) = 0 := by
  intro s
  induction s with
  | nil => rfl
  | cons a s ih =>
    rw [List.zip_cons_cons, List.countP_cons, ih]
    simp

theorem jaroSim_self (a : List Char) (h : a ≠ []) : jaroSim a a = 1 := by
  have hlen : a.length ≠ 0 := fun hz => h (List.length_eq_zero.mp hz)
  have hfull1 : ∀ x, x ∈ (jaroPairs a a).map Prod.fst ↔ x < a.length := by
    intro x
    rw [mem_map_fst_jaroPairs]
    constructor
    · rintro ⟨j, hj⟩; exact ((mem_jaroPairs_self a x j).mp hj).2
    · intro hx; exact ⟨x, (mem_jaroPairs_self a x x).mpr ⟨rfl, hx⟩⟩
  have hfull2 : ∀ x, x ∈ (jaroPairs a a).map Prod.snd ↔ x < a.length := by
    intro x
    rw [mem_map_snd_jaroPairs]
    constructor
    · rintro ⟨i, hi⟩
      have := (mem_jaroPairs_self a i x).mp hi
      omega
    · intro hx; exact ⟨x, (mem_jaroPairs_self a x x).mpr ⟨rfl, hx⟩⟩
  simp only [jaroSim]
  rw [jaroPairs_self_length, if_neg hlen]
  rw [charsAtMem_full a _ hfull1, charsAtMem_full a _ hfull2]
  unfold transpositions
  rw [countP_zip_self, Nat.zero_div, Nat.sub_zero]
  have hq : ((a.length : ℚ)) ≠ 0 := Nat.cast_ne_zero.mpr hlen
  rw [div_self hq]
  norm_num

theorem jaroWinklerVal_self (a : List Char) (h : a ≠ []) : jaroWinklerVal a a = 1 := by
  unfold jaroWinklerVal
  rw [jaroSim_self a h]
  ring

/-- Claim C7: on any non-empty string `s` for which the operation is defined
(its result is not the undefined value), each similarity metric applied to
`(s, s)` is exactly `1`: the n-gram similarities, the Dice–Sorensen
coefficient, the normalized Levenshtein similarity and the Jaro–Winkler
similarity are all reflexive. -/
theorem distMetrics_refl :
    ∀ s : String, s ≠ "" →
      (nGram2 (some s) (some s) ≠ none → nGram2 (some s) (some s) = some 1)
      ∧ (nGram3 (some s) (some s) ≠ none → nGram3 (some s) (some s) = some 1)
      ∧ (diceSorensen (some s) (some s) ≠ none → diceSorensen (some s) (some s) = some 1)
      ∧ normlevenshtein (some s) (some s) = some 1
      ∧ jaroWinkler (some s) (some s) = some 1 := by
  intro s hs
  have hdata : s.data ≠ [] := fun h => hs ((string_eq_empty_iff s).mpr h)
  have hgram : ∀ n : ℕ, nGram n (some s) (some s) ≠ none → nGram n (some s) (some s) = some 1 := by
    intro n h
    simp only [nGram] at h ⊢
    by_cases hc : shingles n s.data = ∅ ∨ shingles n s.data = ∅
    · exact absurd (if_pos hc) h
    · rw [if_neg hc]
      have hne : shingles n s.data ≠ ∅ := fun he => hc (Or.inl he)
      have hcard : ((shingles n s.data).card : ℚ) ≠ 0 := by
        rw [Nat.cast_ne_zero]
        intro hz
        exact hne (Finset.card_eq_zero.mp hz)
      rw [Finset.inter_self, Nat.max_self]
      rw [div_self hcard]
  refine ⟨hgram 2, hgram 3, ?_, ?_, ?_⟩
  · intro h
    simp only [diceSorensen] at h ⊢
    by_cases hc : shingles 2 s.data = ∅ ∨ shingles 2 s.data = ∅
    · exact absurd (if_pos hc) h
    · rw [if_neg hc]
      have hne : shingles 2 s.data ≠ ∅ := fun he => hc (Or.inl he)
      have hcard : ((shingles 2 s.data).card : ℚ) ≠ 0 := by
        rw [Nat.cast_ne_zero]
        intro hz
        exact hne (Finset.card_eq_zero.mp hz)
      rw [Finset.inter_self]
      rw [Option.some_inj]
      push_cast
      field_simp
      ring
  · simp only [normlevenshtein]
    rw [if_neg (fun hc => hdata hc.1)]
    rw [levTable_eq_levRec, levRec_self]
    norm_num
  · simp only [jaroWinkler]
    rw [if_neg (fun hc => hdata (hc.elim id id))]
    rw [jaroWinklerVal_self s.data hdata]

/-- Witness for C7 at the test string of the repository. -/
theorem distMetrics_refl_witness :
    nGram2 (some "asdfg") (some "asdfg") = some 1
    ∧ normlevenshtein (some "asdfg") (some "asdfg") = some 1
    ∧ jaroWinkler (some "asdfg") (some "asdfg") = some 1 := by
  have h := distMetrics_refl "asdfg" (by decide)
  exact ⟨h.1 (by decide), h.2.2.2.1, h.2.2.2.2⟩
